import Mathlib

/-!
# ArcLight scan orchestrator: verification of the core against its spec

Shallow embedding of the scan-job orchestrator found in `arclight.py` /
`scanner.py` (the two files are near-identical duplicates of one design).
Definitions are translated directly from the Python source; theorems settle
the spec's claims about them.
-/

namespace ArcLight

/-! ## Findings and severity summaries (`summarize_from_findings`) -/

/-- One structured finding as read back from `nuclei.jsonl`.  The Python code
looks up `r.get("info", {}).get("severity")` and `r.get("severity")`; we keep
exactly those two access paths as optional strings (`none` models an absent
key or a JSON `null`). -/
structure Finding where
  infoSeverity : Option String
  severity : Option String
deriving Repr, DecidableEq

/-- ASCII-faithful model of `str.lower()` (the severity strings and targets
handled by the code are ASCII). -/
def pyLower (s : String) : String := ⟨s.toList.map Char.toLower⟩

/-- Python truthiness of an optional string: `None` and `""` are falsy. -/
def truthy : Option String → Bool
  | none => false
  | some s => !(s == "")

/-- `(r.get("info", {}).get("severity") or r.get("severity") or "info")`:
first truthy value in the chain, defaulting to `"info"`. -/
def sevRaw (f : Finding) : String :=
  if truthy f.infoSeverity then f.infoSeverity.getD ""
  else if truthy f.severity then f.severity.getD ""
  else "info"

/-- The severity string the code buckets by: the raw chain value, lowercased
(`.lower()`; the source strings of interest are ASCII). -/
def resolvedSev (f : Finding) : String := pyLower (sevRaw f)

/-- `RISK_WEIGHTS = {"critical": 9, "high": 6, "medium": 3, "low": 1, "info": 0}` -/
def RISK_WEIGHTS : List (String × Nat) :=
  [("critical", 9), ("high", 6), ("medium", 3), ("low", 1), ("info", 0)]

/-- The `sev_counts` dictionary: one counter per fixed severity level. -/
structure SevCounts where
  critical : Nat
  high : Nat
  medium : Nat
  low : Nat
  info : Nat
deriving Repr, DecidableEq

/-- Dictionary lookup `sev_counts[k]` for the five fixed keys. -/
def SevCounts.get (c : SevCounts) (k : String) : Nat :=
  if k = "critical" then c.critical
  else if k = "high" then c.high
  else if k = "medium" then c.medium
  else if k = "low" then c.low
  else if k = "info" then c.info
  else 0

/-- `if sev in sev_counts: sev_counts[sev] += 1` — bump the matching bucket,
leave the counts unchanged when `sev` is not one of the five keys. -/
def SevCounts.bump (c : SevCounts) (sev : String) : SevCounts :=
  if sev = "critical" then { c with critical := c.critical + 1 }
  else if sev = "high" then { c with high := c.high + 1 }
  else if sev = "medium" then { c with medium := c.medium + 1 }
  else if sev = "low" then { c with low := c.low + 1 }
  else if sev = "info" then { c with info := c.info + 1 }
  else c

/-- Result shape of `summarize_from_findings`. -/
structure Summary where
  nuclei_findings : Nat
  severity : SevCounts
  risk_score : Nat
deriving Repr, DecidableEq

/-- `summarize_from_findings(nuclei)`: count findings per severity bucket and
derive the weighted risk score `sum(sev_counts[k] * w for k, w in
RISK_WEIGHTS.items())`. -/
def summarize_from_findings (nuclei : List Finding) : Summary :=
  let sev_counts := nuclei.foldl (fun c r => c.bump (resolvedSev r)) ⟨0, 0, 0, 0, 0⟩
  { nuclei_findings := nuclei.length
    severity := sev_counts
    risk_score := RISK_WEIGHTS.foldl (fun acc kw => acc + sev_counts.get kw.1 * kw.2) 0 }

/-- Independent recount used by the theorems: how many findings resolve to
severity `s`. -/
def sevCount (s : String) (nuclei : List Finding) : Nat :=
  nuclei.countP (fun f => resolvedSev f == s)

/-- The five severity levels of the weight table. -/
def sevLevels : List String := ["critical", "high", "medium", "low", "info"]

/-! ## Target normalization (`normalize_targets`, `TARGET_RE`) -/

/-- Python `\s` on the ASCII range: the whitespace characters stripped by
`str.strip()` and matched by the split pattern `[\s,\n\r;]+`. -/
def isPyWs (c : Char) : Bool :=
  c = ' ' || c = '\t' || c = '\n' || c = '\r' || c = Char.ofNat 11 || c = Char.ofNat 12

/-- One character of the split class `[\s,\n\r;]`. -/
def isSepChar (c : Char) : Bool := isPyWs c || c = ',' || c = ';'

/-- The characters removed by `.strip("\"'")`. -/
def isQuoteChar (c : Char) : Bool := c = '"' || c = Char.ofNat 39

/-- `str.strip(chars)`: drop characters satisfying `p` from both ends. -/
def pyStrip (p : Char → Bool) (cs : List Char) : List Char :=
  ((cs.dropWhile p).reverse.dropWhile p).reverse

/-- A character admitted by the host alternative `[A-Za-z0-9.-]` of
`TARGET_RE`. -/
def isHostChar (c : Char) : Bool := c.isAlpha || c.isDigit || c = '.' || c = '-'

/-- A hexadecimal digit `[A-Fa-f0-9]`. -/
def isHexChar (c : Char) : Bool :=
  c.isDigit || ('a' ≤ c && c ≤ 'f') || ('A' ≤ c && c ≤ 'F')

/-- A character of the bracketed-IPv6 alternative body `[A-Fa-f0-9:]`. -/
def isHexColon (c : Char) : Bool := isHexChar c || c = ':'

/-- The alternative `\[[A-Fa-f0-9:]+\]`: an opening bracket, a nonempty run
of hex digits and colons, and a closing bracket. -/
def matchBracket : List Char → Bool
  | '[' :: rest =>
      (match rest.getLast? with
       | some cl => cl = ']' && !rest.dropLast.isEmpty && rest.dropLast.all isHexColon
       | none => false)
  | _ => false

/-- One dotted group `\d{1,3}`. -/
def ipv4Group (g : List Char) : Bool :=
  !g.isEmpty && g.length ≤ 3 && g.all Char.isDigit

/-- The alternative `(?:\d{1,3}\.){3}\d{1,3}`: exactly four dot-separated
groups of one to three digits. -/
def matchIPv4 (cs : List Char) : Bool :=
  (cs.splitOn '.').length = 4 && (cs.splitOn '.').all ipv4Group

/-- The body alternation of `TARGET_RE`:
`[A-Za-z0-9.-]+ | \[[A-Fa-f0-9:]+\] | (?:\d{1,3}\.){3}\d{1,3}`. -/
def matchHostBody (cs : List Char) : Bool :=
  (!cs.isEmpty && cs.all isHostChar) || matchBracket cs || matchIPv4 cs

/-- The optional port group `(?::\d{1,5})?`. -/
def matchPort : List Char → Bool
  | [] => true
  | ':' :: ds => !ds.isEmpty && ds.length ≤ 5 && ds.all Char.isDigit
  | _ => false

/-- `body port?` as a declarative language membership: some split of the
input into a body and an optional port parses.  A backtracking matcher such
as Python's `re` accepts exactly when such a split exists (the pattern has no
lookarounds or backreferences). -/
def matchBodyPort (cs : List Char) : Bool :=
  (List.range (cs.length + 1)).any
    (fun i => matchHostBody (cs.take i) && matchPort (cs.drop i))

/-- Full-anchor match of
`^(?:(?:https?://)?)(?:[A-Za-z0-9.-]+|\[[A-Fa-f0-9:]+\]|(?:\d{1,3}\.){3}\d{1,3})(?::\d{1,5})?$`:
the optional scheme is literally `http://` or `https://`, then the host body
and optional port cover the rest of the input. -/
def targetMatch (s : String) : Bool :=
  let cs := s.toList
  matchBodyPort cs
  || (cs.take 7 == "http://".toList && matchBodyPort (cs.drop 7))
  || (cs.take 8 == "https://".toList && matchBodyPort (cs.drop 8))

/-- `it.strip().strip("\"'")` applied to one raw token, as a `String`. -/
def cleanToken (it : List Char) : String := ⟨pyStrip isQuoteChar (pyStrip isPyWs it)⟩

/-- The loop of `normalize_targets`: skip empty raw tokens, strip whitespace
and surrounding quotes, keep a token when it is nonempty, unseen so far and
matches `TARGET_RE`; `seen` carries the kept tokens. -/
def normLoop : List (List Char) → List String → List String
  | [], _ => []
  | it :: rest, seen =>
    if it.isEmpty then normLoop rest seen
    else
      let t := cleanToken it
      if t ≠ "" && !(seen.contains t) && targetMatch t then
        t :: normLoop rest (t :: seen)
      else normLoop rest seen

/-- The raw tokens of `normalize_targets`: `re.split(r"[\s,\n\r;]+",
(raw or "").strip())`.  Splitting at every separator character and letting
the loop skip empty tokens is equivalent to splitting on maximal runs. -/
def rawTokens (raw : String) : List (List Char) :=
  (pyStrip isPyWs raw.toList).splitOnP isSepChar

/-- `normalize_targets(raw)`: filtered, first-occurrence-deduplicated token
list, truncated to the first 1024 entries (`out[:1024]`). -/
def normalize_targets (raw : String) : List String :=
  (normLoop (rawTokens raw) []).take 1024

/-! ## Tool pipeline builder (`run_for_target` command construction) -/

/-- `target.startswith(p)` modelled on the character list. -/
def strStarts (s p : String) : Bool := s.toList.take p.toList.length == p.toList

/-- `ensure_url`: prepend `http://` when no scheme is given. -/
def ensure_url (target : String) : String :=
  if strStarts target "http://" || strStarts target "https://" then target
  else "http://" ++ target

/-- The base64 alphabet in index order. -/
def b64Alphabet : List Char :=
  "ABCDEFGHIJKLMNOPQRSTUVWXYZabcdefghijklmnopqrstuvwxyz0123456789+/".toList

/-- Character of the base64 alphabet at a 6-bit index. -/
def b64Char (i : Nat) : Char := b64Alphabet.getD i 'A'

/-- Standard base64 of a byte list, with `=` padding
(`base64.b64encode`). -/
def b64EncodeBytes : List Nat → List Char
  | b0 :: b1 :: b2 :: rest =>
      b64Char (b0 / 4) :: b64Char ((b0 % 4) * 16 + b1 / 16) ::
      b64Char ((b1 % 16) * 4 + b2 / 64) :: b64Char (b2 % 64) :: b64EncodeBytes rest
  | [b0, b1] =>
      [b64Char (b0 / 4), b64Char ((b0 % 4) * 16 + b1 / 16), b64Char ((b1 % 16) * 4), '=']
  | [b0] => [b64Char (b0 / 4), b64Char ((b0 % 4) * 16), '=', '=']
  | [] => []

/-- `base64.b64encode(s.encode()).decode()` for the ASCII credential strings
the policy stores (one byte per character). -/
def b64Encode (s : String) : String := ⟨b64EncodeBytes (s.toList.map Char.toNat)⟩

/-- One (title, command) pair produced by the pipeline builder. -/
structure Invocation where
  title : String
  cmd : List String
deriving Repr, DecidableEq

/-- The policy columns read by `run_scan_stream` before building the
per-target pipeline.  `http_basic_user`/`http_basic_pass` are the
already-stripped strings; `nuclei_rate` is the nullable integer column. -/
structure Policy where
  use_nmap : Bool
  nmap_profile : String
  use_nuclei : Bool
  nuclei_sev : String
  use_nikto : Bool
  use_wpscan : Bool
  http_basic_user : String
  http_basic_pass : String
  nuclei_rate : Option Int
deriving Repr, DecidableEq

/-- The three-way nmap profile switch; any unrecognized profile falls back to
the vuln-scripted default. -/
def nmap_args (profile : String) : List String :=
  if profile = "quick" then ["-T4", "-F", "-sV", "-Pn"]
  else if profile = "full" then ["-T4", "-p-", "-sV", "-Pn"]
  else ["-T3", "-sV", "-sC", "--script", "vuln", "-Pn"]

/-- `if basic_user or basic_pass:` — Python truthiness of the two strings. -/
def hasBasicAuth (p : Policy) : Bool :=
  !(p.http_basic_user == "") || !(p.http_basic_pass == "")

/-- `if nuclei_rate:` — a SQL `NULL` or `0` rate is falsy. -/
def rateTruthy : Option Int → Bool
  | none => false
  | some r => !(r == 0)

/-- The nuclei command vector built in `run_for_target`. -/
def nuclei_cmd (p : Policy) (url : String) : List String :=
  ["nuclei", "-u", url, "-severity", p.nuclei_sev, "-jsonl"]
  ++ (if rateTruthy p.nuclei_rate then ["-rl", toString (p.nuclei_rate.getD 0)] else [])
  ++ (if hasBasicAuth p then
        ["-H", "Authorization: Basic " ++
          b64Encode (p.http_basic_user ++ ":" ++ p.http_basic_pass)]
      else [])

/-- The nikto command vector built in `run_for_target`. -/
def nikto_cmd (p : Policy) (url : String) : List String :=
  ["nikto", "-host", url, "-ask", "no"]
  ++ (if hasBasicAuth p then ["-id", p.http_basic_user ++ ":" ++ p.http_basic_pass] else [])

/-- `if token:` for the optional `WPSCAN_API_TOKEN` environment value. -/
def tokenTruthy : Option String → Bool
  | none => false
  | some t => !(t == "")

/-- The wpscan command vector built in `run_for_target`; `wpToken` models
`os.getenv("WPSCAN_API_TOKEN")`. -/
def wpscan_cmd (wpToken : Option String) (url : String) : List String :=
  ["wpscan", "--url", url, "--no-update", "--format", "json"]
  ++ (if tokenTruthy wpToken then ["--api-token", wpToken.getD ""] else [])

/-- The ordered (title, command) list `run_for_target` executes for one
target: nmap, then nuclei, then nikto, then wpscan, each only if enabled by
the policy.  This is the pure pipeline-builder content of the worker; the
commands are built exactly as in the source. -/
def invocations (p : Policy) (wpToken : Option String) (t : String) : List Invocation :=
  (if p.use_nmap then
     [⟨"Nmap on " ++ t, ["nmap"] ++ nmap_args p.nmap_profile ++ [t]⟩] else [])
  ++ (if p.use_nuclei then
     [⟨"Nuclei on " ++ ensure_url t, nuclei_cmd p (ensure_url t)⟩] else [])
  ++ (if p.use_nikto then
     [⟨"Nikto on " ++ ensure_url t, nikto_cmd p (ensure_url t)⟩] else [])
  ++ (if p.use_wpscan then
     [⟨"WPScan on " ++ ensure_url t, wpscan_cmd wpToken (ensure_url t)⟩] else [])

/-- Which of the four tools a policy enables, keyed by executable name; used
to state the fixed-order property. -/
def toolEnabled (p : Policy) (name : String) : Bool :=
  if name = "nmap" then p.use_nmap
  else if name = "nuclei" then p.use_nuclei
  else if name = "nikto" then p.use_nikto
  else if name = "wpscan" then p.use_wpscan
  else false

/-! ## Process Runner (`stream_cmd`) as an event trace

The generator's observable behavior is a list of events: log-artifact
appends, chunks emitted to the caller, the kill attempt and the final wait.
External nondeterminism (is the binary on the path, what the subprocess
prints, how reading ends) is an explicit input. -/

/-- A character `shlex.quote` leaves unquoted: ASCII word characters and
`@ % + = : , . - ` and the forward slash. -/
def shlexSafe (c : Char) : Bool :=
  c.isAlpha || c.isDigit || c = '_' || c = '@' || c = '%' || c = '+' || c = '=' ||
  c = ':' || c = ',' || c = '.' || c = '/' || c = '-'

/-- `shlex.quote(s)`: empty strings and strings with unsafe characters are
wrapped in single quotes, embedded single quotes escaped. -/
def shlexQuote (s : String) : String :=
  if s = "" then ⟨[Char.ofNat 39, Char.ofNat 39]⟩
  else if s.toList.all shlexSafe then s
  else ⟨[Char.ofNat 39] ++
        (s.toList.flatMap (fun c =>
          if c = Char.ofNat 39 then [Char.ofNat 39, '"', Char.ofNat 39, '"', Char.ofNat 39]
          else [c])) ++ [Char.ofNat 39]⟩

/-- The header chunk `\n===== {title} =====\n$ {shell-quoted command}\n\n`. -/
def cmdHeader (title : String) (cmd : List String) : String :=
  "\n===== " ++ title ++ " =====\n$ " ++
  String.intercalate " " (cmd.map shlexQuote) ++ "\n\n"

/-- `[!] Tool not found: {cmd[0]} (skipping)\n`. -/
def notFoundMsg (cmd : List String) : String :=
  "[!] Tool not found: " ++ cmd.headD "" ++ " (skipping)\n"

/-- `\n[!] Timeout reached.\n`. -/
def timeoutMsg : String := "\n[!] Timeout reached.\n"

/-- One observable event of a `stream_cmd` invocation. -/
inductive Ev
  | logWrite (s : String)
  | emit (s : String)
  | kill
  | wait
deriving Repr, DecidableEq

/-- How the read loop of a spawned process ends: clean end of output, no
line within the timeout window, or some other read failure. -/
inductive Term
  | eof
  | timeout
  | readErr (e : String)
deriving Repr, DecidableEq

/-- Spawning either yields a process whose stdout holds `lines` and ends as
`t`, or raises. -/
inductive SpawnResult
  | ok (lines : List String) (t : Term)
  | err (e : String)
deriving Repr, DecidableEq

/-- The exceptions relevant to `stream_cmd`'s handlers. -/
inductive PyExc
  | timeoutErr
  | procGone
  | other (e : String)
deriving Repr, DecidableEq

/-- `str(e)` for the failure chunk. -/
def excMsg : PyExc → String
  | .timeoutErr => "TimeoutError"
  | .procGone => "ProcessLookupError"
  | .other e => e

/-- `[!] Failed to run: {' '.join(cmd)}\nReason: {e}\n`. -/
def failMsg (cmd : List String) (e : PyExc) : String :=
  "[!] Failed to run: " ++ String.intercalate " " cmd ++ "\nReason: " ++ excMsg e ++ "\n"

/-- Append-then-emit pair for one chunk, in the order the code performs the
two effects. -/
def chunkEvents (s : String) : List Ev := [.logWrite s, .emit s]

/-- The per-line events of the read loop: each decoded line is appended to
the log, then yielded. -/
def lineEvents (ls : List String) : List Ev := ls.flatMap chunkEvents

/-- The bare `while True: readline()` loop, before any handler: a timeout or
read failure is a raised exception carrying the events already performed. -/
def readLoop (ls : List String) : Term → Except (PyExc × List Ev) (List Ev)
  | .eof => .ok (lineEvents ls)
  | .timeout => .error (.timeoutErr, lineEvents ls)
  | .readErr e => .error (.other e, lineEvents ls)

/-- `proc.kill()`: raises `ProcessLookupError` when the process is already
gone, otherwise performs the kill. -/
def killOp (procGone : Bool) : Except PyExc (List Ev) :=
  if procGone then .error .procGone else .ok [.kill]

/-- `contextlib.suppress(ProcessLookupError)` around the kill. -/
def suppressGone : Except PyExc (List Ev) → Except PyExc (List Ev)
  | .error .procGone => .ok []
  | r => r

/-- The inner `try`: run the read loop, handle `asyncio.TimeoutError` by
logging and yielding the timeout notice and attempting a suppressed kill;
the `finally` always awaits the process before any exception continues. -/
def innerTry (ls : List String) (t : Term) (procGone : Bool) :
    Except (PyExc × List Ev) (List Ev) :=
  match readLoop ls t with
  | .ok evs => .ok (evs ++ [.wait])
  | .error (.timeoutErr, evs) =>
      (match suppressGone (killOp procGone) with
       | .ok kevs => .ok (evs ++ chunkEvents timeoutMsg ++ kevs ++ [.wait])
       | .error e => .error (e, evs ++ chunkEvents timeoutMsg ++ [.wait]))
  | .error (e, evs) => .error (e, evs ++ [.wait])

/-- `stream_cmd(title, cmd, ...)` with all handlers in place, one `Except`
layer mirroring what could escape to the caller: the header is logged and
yielded, a missing executable short-circuits with the one not-found chunk,
and the outer `except Exception` turns any spawn/read failure into a final
textual chunk. -/
def stream_cmd (title : String) (cmd : List String) (found : Bool)
    (sp : SpawnResult) (procGone : Bool) : Except PyExc (List Ev) :=
  let hdr := chunkEvents (cmdHeader title cmd)
  if !found then .ok (hdr ++ chunkEvents (notFoundMsg cmd))
  else
    match (match sp with
           | .err e => .error (.other e, [])
           | .ok ls t => innerTry ls t procGone : Except (PyExc × List Ev) (List Ev)) with
    | .ok evs => .ok (hdr ++ evs)
    | .error (e, evs) => .ok (hdr ++ evs ++ chunkEvents (failMsg cmd e))

/-- The event trace of one invocation (total: `stream_cmd` never escapes
with an exception, which is proved separately). -/
def streamEvents (title : String) (cmd : List String) (found : Bool)
    (sp : SpawnResult) (procGone : Bool) : List Ev :=
  match stream_cmd title cmd found sp procGone with
  | .ok evs => evs
  | .error _ => []

/-- The chunks handed to the caller, in order. -/
def chunksOf (evs : List Ev) : List String :=
  evs.filterMap (fun e => match e with | .emit s => some s | _ => none)

/-- The texts appended to the log artifact, in order. -/
def logOf (evs : List Ev) : List String :=
  evs.filterMap (fun e => match e with | .logWrite s => some s | _ => none)

/-- A trace is balanced when the log records exactly the yielded chunks in
yield order, and in every temporal cut of the trace every chunk already
handed to the caller had already been appended to the log. -/
def Balanced (evs : List Ev) : Prop :=
  logOf evs = chunksOf evs ∧ ∀ pre, pre <+: evs → chunksOf pre <+: logOf pre

/-! ## Target worker (`run_for_target` execution) -/

/-- The external fate of one tool invocation: whether the executable was on
the path, how the subprocess behaved, and whether it was already gone when
killed. -/
structure ToolRun where
  found : Bool
  sp : SpawnResult
  procGone : Bool

/-- The chunk sequence of one indexed invocation under outcome assignment
`f`. -/
def toolChunks (f : Nat → ToolRun) (iv : Nat × Invocation) : List String :=
  chunksOf (streamEvents iv.2.title iv.2.cmd (f iv.1).found (f iv.1).sp (f iv.1).procGone)

/-- `\n========== Target: {t} ===========\n`, the boundary marker pushed
before the first tool. -/
def targetHeader (t : String) : String :=
  "\n========== Target: " ++ t ++ " ===========\n"

/-- All chunks a target worker pushes for target `t`: the boundary marker,
then each enabled tool's chunk sequence strictly in pipeline order, whatever
each tool's outcome. -/
def run_for_target (p : Policy) (wpToken : Option String) (t : String)
    (f : Nat → ToolRun) : List String :=
  targetHeader t :: ((invocations p wpToken t).enum.map (toolChunks f)).flatten

/-! ## Scheduler tick (`scheduler_loop` body)

Times are integers; `nextOf sid` models `croniter(cron, now).get_next(...)`
for the scan's cron expression relative to the tick's `now` (`none` models
the suppressed croniter exception), `running sid` models the
`status='running'` job query, and the state function models `CRON_STATE`. -/

/-- `CRON_STATE[sid] = v`. -/
def setState (st : Int → Option Int) (sid : Int) (v : Int) : Int → Option Int :=
  fun s => if s = sid then some v else st s

/-- Processing of one scan row inside a tick: seed the cache when absent,
then if the cached fire time is due fire-or-skip and advance the cache; the
returned flag says whether a job run was started for this row. -/
def processRow (nextOf : Int → Option Int) (running : Int → Bool) (now : Int)
    (st : Int → Option Int) (sid : Int) : (Int → Option Int) × Bool :=
  let st1 :=
    match st sid with
    | none =>
      (match nextOf sid with
       | some n => setState st sid n
       | none => st)
    | some _ => st
  match st1 sid with
  | none => (st1, false)
  | some due =>
    if due ≤ now then
      if running sid then
        ((match nextOf sid with
          | some n => setState st1 sid n
          | none => st1), false)
      else
        ((match nextOf sid with
          | some n => setState st1 sid n
          | none => st1), true)
    else (st1, false)

/-- One row's contribution to the tick's accumulator (cache state plus the
list of scan ids for which a job run was started). -/
def tickStep (nextOf : Int → Option Int) (running : Int → Bool) (now : Int)
    (acc : (Int → Option Int) × List Int) (sid : Int) : (Int → Option Int) × List Int :=
  let r := processRow nextOf running now acc.1 sid
  (r.1, acc.2 ++ (if r.2 then [sid] else []))

/-- One scheduler tick over the listed scan ids: disabled scheduling leaves
everything untouched; otherwise each row is processed in turn, accumulating
the scan ids for which a job run was started. -/
def scheduler_tick (disabled : Bool) (rows : List Int) (nextOf : Int → Option Int)
    (running : Int → Bool) (now : Int) (st : Int → Option Int) :
    (Int → Option Int) × List Int :=
  if disabled then (st, [])
  else rows.foldl (tickStep nextOf running now) (st, [])

/-! ## Concurrency controller and fan-in merger (`run_scan_stream` core)

A small-step interleaving model of the semaphore-gated workers, the shared
FIFO queue of chunks and `None` sentinels, and the merge loop that counts
sentinels up to the number of targets.  `M` is the number of targets and
`cs w` the chunk sequence worker `w` would push (its target marker followed
by its tools' output).  `pushed` is a history variable recording every
non-sentinel chunk ever enqueued, in order. -/

/-- Status of one target worker task. -/
inductive WStatus (M : Nat)
  | pending (rest : List String)
  | running (rest : List String)
  | done
deriving DecidableEq

/-- A queue item: a chunk pushed by a worker, or that worker's completion
sentinel (`None` in the source). -/
inductive QItem (M : Nat)
  | chunk (w : Fin M) (s : String)
  | sentinel (w : Fin M)
deriving DecidableEq

/-- Whether a worker currently holds the semaphore and is executing its
pipeline. -/
def WStatus.isRunning {M : Nat} : WStatus M → Bool
  | .running _ => true
  | _ => false

/-- Global state of one job run: worker statuses, free semaphore permits,
the shared queue, the chunks yielded to the caller so far, the merge loop's
sentinel count, and the push history. -/
structure JobState (M : Nat) where
  ws : Fin M → WStatus M
  sem : Nat
  queue : List (QItem M)
  out : List (Fin M × String)
  finished : Nat
  pushed : List (Fin M × String)

/-- Number of workers currently executing. -/
def runningCount {M : Nat} (s : JobState M) : Nat :=
  ∑ w : Fin M, (if (s.ws w).isRunning then 1 else 0)

/-- Number of workers that have completed (sentinel pushed, permit
released). -/
def doneCount {M : Nat} (s : JobState M) : Nat :=
  ∑ w : Fin M, (if s.ws w = .done then 1 else 0)

/-- The non-sentinel chunks of a queue, in order. -/
def qChunks {M : Nat} (q : List (QItem M)) : List (Fin M × String) :=
  q.filterMap (fun it => match it with | .chunk w c => some (w, c) | _ => none)

/-- The number of sentinels in a queue. -/
def qSentinels {M : Nat} (q : List (QItem M)) : Nat :=
  q.countP (fun it => match it with | .sentinel _ => true | _ => false)

/-- Interleaving steps of the job run.  A pending worker starts only when a
permit is free; a running worker pushes its next chunk or completes by
pushing its sentinel and releasing the permit (completion with chunks left
models an internal error reaching the worker's `finally`); the merge loop
pops the queue head while fewer than `M` sentinels have been seen. -/
inductive JobStep (M N : Nat) : JobState M → JobState M → Prop
  | start (s : JobState M) (w : Fin M) (rest : List String)
      (hw : s.ws w = .pending rest) (hsem : 0 < s.sem) :
      JobStep M N s
        { s with ws := Function.update s.ws w (.running rest), sem := s.sem - 1 }
  | push (s : JobState M) (w : Fin M) (c : String) (rest : List String)
      (hw : s.ws w = .running (c :: rest)) :
      JobStep M N s
        { s with ws := Function.update s.ws w (.running rest),
                 queue := s.queue ++ [.chunk w c],
                 pushed := s.pushed ++ [(w, c)] }
  | finish (s : JobState M) (w : Fin M) (rest : List String)
      (hw : s.ws w = .running rest) :
      JobStep M N s
        { s with ws := Function.update s.ws w .done,
                 queue := s.queue ++ [.sentinel w],
                 sem := s.sem + 1 }
  | consumeChunk (s : JobState M) (w : Fin M) (c : String) (rest : List (QItem M))
      (hq : s.queue = .chunk w c :: rest) (hf : s.finished < M) :
      JobStep M N s
        { s with queue := rest, out := s.out ++ [(w, c)] }
  | consumeSentinel (s : JobState M) (w : Fin M) (rest : List (QItem M))
      (hq : s.queue = .sentinel w :: rest) (hf : s.finished < M) :
      JobStep M N s
        { s with queue := rest, finished := s.finished + 1 }

/-- The state right after the tasks are created: all workers pending with
their chunk lists, `N` free permits, empty queue, nothing yielded. -/
def initState (M N : Nat) (cs : Fin M → List String) : JobState M :=
  { ws := fun w => .pending (cs w), sem := N, queue := [], out := [], finished := 0,
    pushed := [] }

/-- Reachability from the initial state by interleaving steps. -/
def JobReachable (M N : Nat) (cs : Fin M → List String) (s : JobState M) : Prop :=
  Relation.ReflTransGen (JobStep M N) (initState M N cs) s

/-- The inductive invariant of a job run: the free permits and the running
workers partition the semaphore's capacity; the push history splits into the
yielded chunks followed by the chunks still queued; the consumed and queued
sentinels account exactly for the completed workers; a worker's chunks never
trail its sentinel in the queue; a queued chunk belongs to a worker that is
still running or whose sentinel is still queued; and a queued sentinel
belongs to a completed worker. -/
def JobInv (M N : Nat) (s : JobState M) : Prop :=
  s.sem + runningCount s = N
  ∧ s.pushed = s.out ++ qChunks s.queue
  ∧ s.finished + qSentinels s.queue = doneCount s
  ∧ (∀ (w : Fin M) (q1 q2 : List (QItem M)),
      s.queue = q1 ++ .sentinel w :: q2 → ∀ c, QItem.chunk w c ∉ q2)
  ∧ (∀ (w : Fin M) (c : String), QItem.chunk w c ∈ s.queue →
      ((s.ws w).isRunning = true ∨ QItem.sentinel w ∈ s.queue))
  ∧ (∀ w : Fin M, QItem.sentinel w ∈ s.queue → s.ws w = .done)

/-! ## Concrete sample inputs used by witness instances -/

/-- The C6 scenario policy: only nuclei enabled, severity filter
`critical,high`, no rate limit, no basic-auth credentials. -/
def nucleiOnlyPolicy : Policy :=
  { use_nmap := false, nmap_profile := "vuln", use_nuclei := true,
    nuclei_sev := "critical,high", use_nikto := false, use_wpscan := false,
    http_basic_user := "", http_basic_pass := "", nuclei_rate := none }

/-- A policy with all four tools enabled and no credentials. -/
def allToolsPolicy : Policy :=
  { use_nmap := true, nmap_profile := "quick", use_nuclei := true,
    nuclei_sev := "high", use_nikto := true, use_wpscan := true,
    http_basic_user := "", http_basic_pass := "", nuclei_rate := none }

/-- An outcome assignment where every tool is on the path and prints one
line. -/
def okRun : Nat → ToolRun := fun _ => ⟨true, .ok ["out\n"] .eof, false⟩

/-- An outcome assignment where the first tool's executable is missing and
the rest behave normally. -/
def firstMissingRun : Nat → ToolRun :=
  fun i => if i = 0 then ⟨false, .ok [] .eof, false⟩ else ⟨true, .ok ["out\n"] .eof, false⟩

/-! ## Severity summary theorems -/

lemma bump_critical (c : SevCounts) (k : String) :
    (c.bump k).critical = c.critical + (if k = "critical" then 1 else 0) := by
  simp only [SevCounts.bump]
  split_ifs <;> simp_all

lemma bump_high (c : SevCounts) (k : String) :
    (c.bump k).high = c.high + (if k = "high" then 1 else 0) := by
  simp only [SevCounts.bump]
  split_ifs <;> simp_all

lemma bump_medium (c : SevCounts) (k : String) :
    (c.bump k).medium = c.medium + (if k = "medium" then 1 else 0) := by
  simp only [SevCounts.bump]
  split_ifs <;> simp_all

lemma bump_low (c : SevCounts) (k : String) :
    (c.bump k).low = c.low + (if k = "low" then 1 else 0) := by
  simp only [SevCounts.bump]
  split_ifs <;> simp_all

lemma bump_info (c : SevCounts) (k : String) :
    (c.bump k).info = c.info + (if k = "info" then 1 else 0) := by
  simp only [SevCounts.bump]
  split_ifs <;> simp_all

/-- The counting fold of `summarize_from_findings` lands, bucket by bucket,
on the independent recount `sevCount`. -/
lemma foldl_bump_eq (fs : List Finding) (c : SevCounts) :
    fs.foldl (fun acc r => acc.bump (resolvedSev r)) c =
      ⟨c.critical + sevCount "critical" fs, c.high + sevCount "high" fs,
       c.medium + sevCount "medium" fs, c.low + sevCount "low" fs,
       c.info + sevCount "info" fs⟩ := by
  induction fs generalizing c with
  | nil => simp [sevCount]
  | cons f fs ih =>
    simp only [List.foldl_cons, ih, sevCount, List.countP_cons]
    have hc := bump_critical c (resolvedSev f)
    have hh := bump_high c (resolvedSev f)
    have hm := bump_medium c (resolvedSev f)
    have hl := bump_low c (resolvedSev f)
    have hi := bump_info c (resolvedSev f)
    refine SevCounts.mk.injEq .. ▸ ?_
    simp only [hc, hh, hm, hl, hi, beq_iff_eq]
    constructor
    · split_ifs <;> omega
    constructor
    · split_ifs <;> omega
    constructor
    · split_ifs <;> omega
    constructor
    · split_ifs <;> omega
    · split_ifs <;> omega

/-- The five bucket counters of a computed summary are exactly the recounts
of findings resolving to each level. -/
lemma summary_counts (fs : List Finding) :
    (summarize_from_findings fs).severity =
      ⟨sevCount "critical" fs, sevCount "high" fs, sevCount "medium" fs,
       sevCount "low" fs, sevCount "info" fs⟩ := by
  simp [summarize_from_findings, foldl_bump_eq fs ⟨0, 0, 0, 0, 0⟩]

/-- C1: for every list of findings, the summary's risk score is the weighted
sum of the per-severity counts with the fixed weights critical=9, high=6,
medium=3, low=1, info=0; for the empty list the risk score and the finding
count are both zero. -/
theorem summarize_risk_score_weighted (fs : List Finding) :
    (summarize_from_findings fs).risk_score =
      9 * sevCount "critical" fs + 6 * sevCount "high" fs +
      3 * sevCount "medium" fs + 1 * sevCount "low" fs + 0 * sevCount "info" fs
    ∧ (summarize_from_findings []).risk_score = 0
    ∧ (summarize_from_findings []).nuclei_findings = 0 := by
  refine ⟨?_, by decide, by decide⟩
  simp [summarize_from_findings, foldl_bump_eq fs ⟨0, 0, 0, 0, 0⟩, RISK_WEIGHTS,
        SevCounts.get, List.foldl_cons]
  ring

/-- The five recounts sum to the count of findings resolving inside the
weight table. -/
lemma sum_sevCounts (fs : List Finding) :
    sevCount "critical" fs + sevCount "high" fs + sevCount "medium" fs +
      sevCount "low" fs + sevCount "info" fs =
      fs.countP (fun f => sevLevels.contains (resolvedSev f)) := by
  induction fs with
  | nil => rfl
  | cons f fs ih =>
    simp only [sevCount, List.countP_cons] at *
    by_cases h1 : resolvedSev f = "critical" <;>
      by_cases h2 : resolvedSev f = "high" <;>
      by_cases h3 : resolvedSev f = "medium" <;>
      by_cases h4 : resolvedSev f = "low" <;>
      by_cases h5 : resolvedSev f = "info" <;>
      simp_all [sevLevels, List.elem_iff] <;> omega

/-- C9: a finding increments a severity bucket exactly when its resolved
severity string is that bucket's level; findings with any other severity
increment no bucket but still count toward `nuclei_findings`, so the bucket
sum is at most `nuclei_findings`, with equality exactly when every finding
resolves to one of the five levels. -/
theorem summarize_bucket_sum (fs : List Finding) :
    ((summarize_from_findings fs).severity =
      ⟨sevCount "critical" fs, sevCount "high" fs, sevCount "medium" fs,
       sevCount "low" fs, sevCount "info" fs⟩)
    ∧ ((summarize_from_findings fs).severity.critical +
        (summarize_from_findings fs).severity.high +
        (summarize_from_findings fs).severity.medium +
        (summarize_from_findings fs).severity.low +
        (summarize_from_findings fs).severity.info ≤
        (summarize_from_findings fs).nuclei_findings)
    ∧ ((summarize_from_findings fs).severity.critical +
        (summarize_from_findings fs).severity.high +
        (summarize_from_findings fs).severity.medium +
        (summarize_from_findings fs).severity.low +
        (summarize_from_findings fs).severity.info =
        (summarize_from_findings fs).nuclei_findings
        ↔ ∀ f ∈ fs, resolvedSev f ∈ sevLevels) := by
  have hcounts := summary_counts fs
  have hlen : (summarize_from_findings fs).nuclei_findings = fs.length := rfl
  have hsum : (summarize_from_findings fs).severity.critical +
      (summarize_from_findings fs).severity.high +
      (summarize_from_findings fs).severity.medium +
      (summarize_from_findings fs).severity.low +
      (summarize_from_findings fs).severity.info =
      fs.countP (fun f => sevLevels.contains (resolvedSev f)) := by
    rw [hcounts]
    exact sum_sevCounts fs
  refine ⟨hcounts, ?_, ?_⟩
  · rw [hsum, hlen]
    exact List.countP_le_length _
  · rw [hsum, hlen, List.countP_eq_length]
    constructor
    · intro h f hf
      have := h f hf
      simpa [List.elem_iff] using this
    · intro h f hf
      simpa [List.elem_iff] using h f hf

/-! ## Target normalization theorems -/

/-- The kept tokens form a sublist of the cleaned raw tokens: output order
is first-occurrence input order. -/
lemma normLoop_sublist : ∀ (items : List (List Char)) (seen : List String),
    (normLoop items seen).Sublist (items.map cleanToken)
  | [], _ => List.nil_sublist _
  | it :: rest, seen => by
    simp only [normLoop, List.map_cons]
    split
    · exact (normLoop_sublist rest seen).cons _
    · split
      · exact (normLoop_sublist rest _).cons₂ _
      · exact (normLoop_sublist rest seen).cons _

/-- Every kept token was absent from the `seen` accumulator. -/
lemma normLoop_not_seen : ∀ (items : List (List Char)) (seen : List String)
    (t : String), t ∈ normLoop items seen → ¬ t ∈ seen := by
  intro items
  induction items with
  | nil => intro seen t h; simp [normLoop] at h
  | cons it rest ih =>
    intro seen t h
    simp only [normLoop] at h
    split at h
    · exact ih seen t h
    · split at h
      · rename_i hcond
        rcases List.mem_cons.mp h with rfl | hmem
        · simp only [Bool.and_eq_true] at hcond
          have hc := hcond.1.2
          simpa [List.elem_iff] using hc
        · intro hseen
          exact ih _ t hmem (List.mem_cons_of_mem _ hseen)
      · exact ih seen t h

/-- The dedupe loop yields no duplicates. -/
lemma normLoop_nodup : ∀ (items : List (List Char)) (seen : List String),
    (normLoop items seen).Nodup := by
  intro items
  induction items with
  | nil => intro seen; simp [normLoop]
  | cons it rest ih =>
    intro seen
    simp only [normLoop]
    split
    · exact ih seen
    · split
      · refine List.nodup_cons.mpr ⟨?_, ih _⟩
        intro hmem
        exact normLoop_not_seen rest _ _ hmem (List.mem_cons_self _ _)
      · exact ih seen

/-- Every kept token matches `TARGET_RE`. -/
lemma normLoop_matches : ∀ (items : List (List Char)) (seen : List String)
    (t : String), t ∈ normLoop items seen → targetMatch t = true := by
  intro items
  induction items with
  | nil => intro seen t h; simp [normLoop] at h
  | cons it rest ih =>
    intro seen t h
    simp only [normLoop] at h
    split at h
    · exact ih seen t h
    · split at h
      · rename_i hcond
        rcases List.mem_cons.mp h with rfl | hmem
        · simp only [Bool.and_eq_true] at hcond
          exact hcond.2
        · exact ih _ t hmem
      · exact ih seen t h

/-- C10: `normalize_targets` returns a duplicate-free list, of length at
most 1024, containing only tokens that match the target pattern, in a
sublist (hence first-occurrence order) of the cleaned input tokens. -/
theorem normalize_targets_spec (raw : String) :
    (normalize_targets raw).Nodup
    ∧ (normalize_targets raw).length ≤ 1024
    ∧ (∀ t ∈ normalize_targets raw, targetMatch t = true)
    ∧ (normalize_targets raw).Sublist ((rawTokens raw).map cleanToken) := by
  refine ⟨?_, ?_, ?_, ?_⟩
  · exact (List.take_sublist _ _).nodup (normLoop_nodup (rawTokens raw) [])
  · exact List.length_take_le _ _
  · intro t ht
    exact normLoop_matches (rawTokens raw) [] t (List.mem_of_mem_take ht)
  · exact (List.take_sublist _ _).trans (normLoop_sublist (rawTokens raw) [])

/-- Closed instance of `normalize_targets_spec`: the membership hypothesis
discharged on a concrete input. -/
theorem normalize_targets_spec_witness : targetMatch "example.com" = true :=
  (normalize_targets_spec "example.com, 1.2.3.4").2.2.1 "example.com" (by decide)

/-! ## Tool pipeline theorems -/

/-- C5: for every policy and target the invocation list runs the tools in
the fixed order nmap, nuclei, nikto, wpscan filtered by the policy's enable
flags, and under every outcome assignment — including missing or failing
earlier tools — each invocation's chunk sequence appears in the worker's
output. -/
theorem pipeline_fixed_order (p : Policy) (wpToken : Option String) (t : String)
    (f : Nat → ToolRun) (iv : Nat × Invocation)
    (hiv : iv ∈ (invocations p wpToken t).enum) :
    ((invocations p wpToken t).map (fun inv => inv.cmd.headD "")) =
      ["nmap", "nuclei", "nikto", "wpscan"].filter (toolEnabled p)
    ∧ toolChunks f iv <:+: run_for_target p wpToken t f := by
  constructor
  · obtain ⟨un, prof, uc, sev, uk, uw, bu, bp, rate⟩ := p
    cases un <;> cases uc <;> cases uk <;> cases uw <;>
      simp [invocations, toolEnabled, nuclei_cmd, nikto_cmd, wpscan_cmd, nmap_args]
  · have h1 : toolChunks f iv ∈ ((invocations p wpToken t).enum.map (toolChunks f)) :=
      List.mem_map_of_mem _ hiv
    exact List.infix_cons (List.infix_of_mem_flatten h1)

/-- Closed instance of `pipeline_fixed_order` at a four-tool policy and the
first invocation. -/
theorem pipeline_fixed_order_witness :
    ((invocations allToolsPolicy none "t.example").map (fun inv => inv.cmd.headD "")) =
      ["nmap", "nuclei", "nikto", "wpscan"].filter (toolEnabled allToolsPolicy)
    ∧ toolChunks okRun ((0 : Nat),
        (⟨"Nmap on t.example",
          ["nmap", "-T4", "-F", "-sV", "-Pn", "t.example"]⟩ : Invocation)) <:+:
        run_for_target allToolsPolicy none "t.example" okRun :=
  pipeline_fixed_order allToolsPolicy none "t.example" okRun _ (by decide)

/-- C6: with only nuclei enabled, severity filter `critical,high`, no rate
limit and no credentials, target `example.com` yields exactly one
invocation: nuclei against `http://example.com` with `-severity
critical,high`, JSON-line output, and no `-H` authorization argument. -/
theorem nuclei_invocation_scenario :
    invocations nucleiOnlyPolicy none "example.com" =
      [⟨"Nuclei on http://example.com",
        ["nuclei", "-u", "http://example.com", "-severity", "critical,high", "-jsonl"]⟩]
    ∧ (invocations nucleiOnlyPolicy none "example.com").length = 1
    ∧ "-H" ∉ nuclei_cmd nucleiOnlyPolicy (ensure_url "example.com") := by
  decide

/-! ## Process Runner theorems -/

lemma chunksOf_append (a b : List Ev) : chunksOf (a ++ b) = chunksOf a ++ chunksOf b :=
  List.filterMap_append a b _

lemma logOf_append (a b : List Ev) : logOf (a ++ b) = logOf a ++ logOf b :=
  List.filterMap_append a b _

lemma chunksOf_lineEvents (ls : List String) : chunksOf (lineEvents ls) = ls := by
  induction ls with
  | nil => rfl
  | cons l ls ih =>
    show chunksOf (chunkEvents l ++ lineEvents ls) = l :: ls
    rw [chunksOf_append, ih]
    rfl

/-- The header chunk can never coincide with the not-found chunk: they start
with different characters. -/
lemma cmdHeader_ne_notFound (title : String) (cmd : List String) :
    cmdHeader title cmd ≠ notFoundMsg cmd := by
  intro h
  have h2 : (cmdHeader title cmd).data.head? = (notFoundMsg cmd).data.head? := by rw [h]
  simp [cmdHeader, notFoundMsg, String.data_append] at h2

/-- C4: no input — spawn failure, read failure, timeout, missing binary —
makes `stream_cmd` escape with an exception; a timeout appends and yields
the timeout notice, attempts the kill tolerating an already-gone process,
and ends the trace; launch and read failures end the chunk sequence with
the failure text. -/
theorem stream_cmd_no_exception (title : String) (cmd : List String) (found : Bool)
    (sp : SpawnResult) (pg : Bool) :
    stream_cmd title cmd found sp pg = .ok (streamEvents title cmd found sp pg)
    ∧ (∀ ls, streamEvents title cmd true (.ok ls .timeout) pg =
        chunkEvents (cmdHeader title cmd) ++ lineEvents ls ++ chunkEvents timeoutMsg ++
          (if pg then [] else [.kill]) ++ [.wait])
    ∧ (∀ ls e, chunksOf (streamEvents title cmd true (.ok ls (.readErr e)) pg) =
        cmdHeader title cmd :: (ls ++ [failMsg cmd (.other e)]))
    ∧ (∀ e, chunksOf (streamEvents title cmd true (.err e) pg) =
        [cmdHeader title cmd, failMsg cmd (.other e)]) := by
  refine ⟨?_, ?_, ?_, ?_⟩
  · cases found with
    | false => rfl
    | true =>
      cases sp with
      | err e => rfl
      | ok ls t =>
        cases t with
        | eof => rfl
        | timeout => cases pg <;> rfl
        | readErr e => rfl
  · intro ls
    cases pg <;>
      simp [streamEvents, stream_cmd, innerTry, readLoop, killOp, suppressGone,
            List.append_assoc]
  · intro ls e
    show chunksOf (chunkEvents (cmdHeader title cmd) ++
      ((lineEvents ls ++ [.wait]) ++ chunkEvents (failMsg cmd (.other e)))) = _
    rw [chunksOf_append, chunksOf_append, chunksOf_append, chunksOf_lineEvents ls]
    simp [chunksOf, chunkEvents]
  · intro e
    rfl

/-- C3: a missing executable yields the header and then exactly one
`Tool not found` chunk and nothing else for that invocation, and every
invocation of the same target — whatever the outcomes of the others — still
contributes its chunks to the worker's output. -/
theorem stream_cmd_missing_tool (title : String) (cmd : List String) (sp : SpawnResult)
    (pg : Bool) (p : Policy) (wpToken : Option String) (t : String) (f : Nat → ToolRun)
    (iv : Nat × Invocation) (hiv : iv ∈ (invocations p wpToken t).enum) :
    chunksOf (streamEvents title cmd false sp pg) = [cmdHeader title cmd, notFoundMsg cmd]
    ∧ (chunksOf (streamEvents title cmd false sp pg)).count (notFoundMsg cmd) = 1
    ∧ toolChunks f iv <:+: run_for_target p wpToken t f := by
  refine ⟨rfl, ?_, ?_⟩
  · show ([cmdHeader title cmd, notFoundMsg cmd]).count (notFoundMsg cmd) = 1
    simp [List.count_cons, cmdHeader_ne_notFound title cmd]
  · have h1 : toolChunks f iv ∈ ((invocations p wpToken t).enum.map (toolChunks f)) :=
      List.mem_map_of_mem _ hiv
    exact List.infix_cons (List.infix_of_mem_flatten h1)

/-- Closed instance of `stream_cmd_missing_tool`: the first tool of a
four-tool policy is missing, the nuclei invocation still streams. -/
theorem stream_cmd_missing_tool_witness :
    chunksOf (streamEvents "Nmap on t.example" ["nmap"] false (.ok [] .eof) false) =
      [cmdHeader "Nmap on t.example" ["nmap"], notFoundMsg ["nmap"]]
    ∧ (chunksOf (streamEvents "Nmap on t.example" ["nmap"] false (.ok [] .eof) false)).count
        (notFoundMsg ["nmap"]) = 1
    ∧ toolChunks firstMissingRun ((0 : Nat),
        (⟨"Nmap on t.example",
          ["nmap", "-T4", "-F", "-sV", "-Pn", "t.example"]⟩ : Invocation)) <:+:
        run_for_target allToolsPolicy none "t.example" firstMissingRun :=
  stream_cmd_missing_tool "Nmap on t.example" ["nmap"] (.ok [] .eof) false
    allToolsPolicy none "t.example" firstMissingRun _ (by decide)

lemma prefix_append_cases {α : Type} {pre xs ys : List α} (h : pre <+: xs ++ ys) :
    pre <+: xs ∨ ∃ p2, pre = xs ++ p2 ∧ p2 <+: ys := by
  induction xs generalizing pre with
  | nil => exact .inr ⟨pre, rfl, by simpa using h⟩
  | cons x xs ih =>
    cases pre with
    | nil => exact .inl ⟨x :: xs, rfl⟩
    | cons a pre2 =>
      obtain ⟨tl, htl⟩ := h
      rw [List.cons_append] at htl
      have h1 : a = x := (List.cons.injEq ..).mp htl |>.1
      have h2 : pre2 ++ tl = xs ++ ys := (List.cons.injEq ..).mp htl |>.2
      subst h1
      rcases ih ⟨tl, h2⟩ with hl | ⟨p2, hp2, hpre⟩
      · obtain ⟨tl2, htl2⟩ := hl
        exact .inl ⟨tl2, by rw [List.cons_append, htl2]⟩
      · exact .inr ⟨p2, by rw [hp2, List.cons_append], hpre⟩

lemma balanced_nil : Balanced [] := by
  refine ⟨rfl, ?_⟩
  intro pre hpre
  obtain ⟨tl, htl⟩ := hpre
  rcases List.append_eq_nil.mp htl with ⟨rfl, rfl⟩
  exact ⟨[], rfl⟩

lemma balanced_append {A B : List Ev} (hA : Balanced A) (hB : Balanced B) :
    Balanced (A ++ B) := by
  refine ⟨?_, ?_⟩
  · rw [logOf_append, chunksOf_append, hA.1, hB.1]
  · intro pre hpre
    rcases prefix_append_cases hpre with h | ⟨p2, rfl, hp2⟩
    · exact hA.2 pre h
    · rw [chunksOf_append, logOf_append, hA.1]
      obtain ⟨tl, htl⟩ := hB.2 p2 hp2
      exact ⟨tl, by rw [List.append_assoc, htl]⟩

lemma balanced_chunk (s : String) : Balanced (chunkEvents s) := by
  refine ⟨rfl, ?_⟩
  intro pre hpre
  obtain ⟨tl, htl⟩ := hpre
  cases pre with
  | nil => exact ⟨logOf [], rfl⟩
  | cons a pre2 =>
    rw [List.cons_append] at htl
    have h1 : a = Ev.logWrite s := (List.cons.injEq ..).mp htl |>.1
    have h2 : pre2 ++ tl = [Ev.emit s] := (List.cons.injEq ..).mp htl |>.2
    subst h1
    cases pre2 with
    | nil => exact ⟨[s], rfl⟩
    | cons b pre3 =>
      rw [List.cons_append] at h2
      have h3 : b = Ev.emit s := (List.cons.injEq ..).mp h2 |>.1
      have h4 : pre3 ++ tl = [] := (List.cons.injEq ..).mp h2 |>.2
      rcases List.append_eq_nil.mp h4 with ⟨rfl, rfl⟩
      subst h3
      exact ⟨[], rfl⟩

lemma balanced_kill : Balanced [Ev.kill] := by
  refine ⟨rfl, ?_⟩
  intro pre hpre
  obtain ⟨tl, htl⟩ := hpre
  cases pre with
  | nil => exact ⟨[], rfl⟩
  | cons a pre2 =>
    rw [List.cons_append] at htl
    have h1 : a = Ev.kill := (List.cons.injEq ..).mp htl |>.1
    have h2 : pre2 ++ tl = [] := (List.cons.injEq ..).mp htl |>.2
    rcases List.append_eq_nil.mp h2 with ⟨rfl, rfl⟩
    subst h1
    exact ⟨[], rfl⟩

lemma balanced_wait : Balanced [Ev.wait] := by
  refine ⟨rfl, ?_⟩
  intro pre hpre
  obtain ⟨tl, htl⟩ := hpre
  cases pre with
  | nil => exact ⟨[], rfl⟩
  | cons a pre2 =>
    rw [List.cons_append] at htl
    have h1 : a = Ev.wait := (List.cons.injEq ..).mp htl |>.1
    have h2 : pre2 ++ tl = [] := (List.cons.injEq ..).mp htl |>.2
    rcases List.append_eq_nil.mp h2 with ⟨rfl, rfl⟩
    subst h1
    exact ⟨[], rfl⟩

lemma balanced_lineEvents (ls : List String) : Balanced (lineEvents ls) := by
  induction ls with
  | nil => exact balanced_nil
  | cons l ls ih =>
    show Balanced (chunkEvents l ++ lineEvents ls)
    exact balanced_append (balanced_chunk l) ih

lemma balanced_stream (title : String) (cmd : List String) (found : Bool)
    (sp : SpawnResult) (pg : Bool) : Balanced (streamEvents title cmd found sp pg) := by
  cases found with
  | false =>
    show Balanced (chunkEvents (cmdHeader title cmd) ++ chunkEvents (notFoundMsg cmd))
    exact balanced_append (balanced_chunk _) (balanced_chunk _)
  | true =>
    cases sp with
    | err e =>
      show Balanced (chunkEvents (cmdHeader title cmd) ++
        ([] ++ chunkEvents (failMsg cmd (.other e))))
      exact balanced_append (balanced_chunk _)
        (balanced_append balanced_nil (balanced_chunk _))
    | ok ls t =>
      cases t with
      | eof =>
        show Balanced (chunkEvents (cmdHeader title cmd) ++ (lineEvents ls ++ [Ev.wait]))
        exact balanced_append (balanced_chunk _)
          (balanced_append (balanced_lineEvents ls) balanced_wait)
      | timeout =>
        cases pg with
        | true =>
          show Balanced (chunkEvents (cmdHeader title cmd) ++
            (lineEvents ls ++ chunkEvents timeoutMsg ++ [] ++ [Ev.wait]))
          exact balanced_append (balanced_chunk _)
            (balanced_append
              (balanced_append
                (balanced_append (balanced_lineEvents ls) (balanced_chunk _))
                balanced_nil)
              balanced_wait)
        | false =>
          show Balanced (chunkEvents (cmdHeader title cmd) ++
            (lineEvents ls ++ chunkEvents timeoutMsg ++ [Ev.kill] ++ [Ev.wait]))
          exact balanced_append (balanced_chunk _)
            (balanced_append
              (balanced_append
                (balanced_append (balanced_lineEvents ls) (balanced_chunk _))
                balanced_kill)
              balanced_wait)
      | readErr e =>
        show Balanced (chunkEvents (cmdHeader title cmd) ++
          ((lineEvents ls ++ [Ev.wait]) ++ chunkEvents (failMsg cmd (.other e))))
        exact balanced_append (balanced_chunk _)
          (balanced_append (balanced_append (balanced_lineEvents ls) balanced_wait)
            (balanced_chunk _))

/-- C8: for every invocation the log-artifact append sequence equals the
chunk sequence handed to the caller, and in every temporal cut of the trace
the chunks already yielded form an initial segment of the texts already
appended: every chunk is durably logged before the caller sees it. -/
theorem stream_cmd_log_order (title : String) (cmd : List String) (found : Bool)
    (sp : SpawnResult) (pg : Bool) :
    logOf (streamEvents title cmd found sp pg) = chunksOf (streamEvents title cmd found sp pg)
    ∧ ∀ pre, pre <+: streamEvents title cmd found sp pg →
        chunksOf pre <+: logOf pre :=
  ⟨(balanced_stream title cmd found sp pg).1, (balanced_stream title cmd found sp pg).2⟩

/-- Closed instance of `stream_cmd_log_order`: the cut right after the
header was appended but before it was yielded. -/
theorem stream_cmd_log_order_witness :
    chunksOf [Ev.logWrite (cmdHeader "T" ["echo"])] <+:
      logOf [Ev.logWrite (cmdHeader "T" ["echo"])] :=
  (stream_cmd_log_order "T" ["echo"] true (.ok ["a"] .eof) false).2
    [Ev.logWrite (cmdHeader "T" ["echo"])]
    ⟨[Ev.emit (cmdHeader "T" ["echo"]), Ev.logWrite "a", Ev.emit "a", Ev.wait], rfl⟩

/-! ## Scheduler theorems -/

/-- A row for a different scan never touches this scan's cache entry. -/
lemma processRow_other_id (nextOf : Int → Option Int) (running : Int → Bool)
    (now : Int) (st : Int → Option Int) (sid sid2 : Int) (h : sid2 ≠ sid) :
    (processRow nextOf running now st sid2).1 sid = st sid := by
  have hne : sid ≠ sid2 := fun he => h he.symm
  have hset : ∀ (g : Int → Option Int) (v : Int), setState g sid2 v sid = g sid := by
    intro g v
    simp [setState, hne]
  simp only [processRow]
  repeat' split
  all_goals simp [hset]

/-- When the cached fire time of `sid` is due and a job for `sid` is still
running, the row is skipped: no job starts and the cache advances to the
croniter value. -/
lemma processRow_skip (nextOf : Int → Option Int) (running : Int → Bool)
    (now due n : Int) (st : Int → Option Int) (sid : Int)
    (hst : st sid = some due) (hdue : due ≤ now) (hrun : running sid = true)
    (hnext : nextOf sid = some n) :
    processRow nextOf running now st sid = (setState st sid n, false) := by
  simp [processRow, hst, hdue, hrun, hnext]

/-- The tick's fold leaves an unlisted scan's cache entry and job flag
alone. -/
lemma tick_fold_no_sid (nextOf : Int → Option Int) (running : Int → Bool)
    (now : Int) (sid : Int) :
    ∀ (rows : List Int) (st : Int → Option Int) (jobs : List Int), sid ∉ rows →
      ((rows.foldl (tickStep nextOf running now) (st, jobs)).1 sid = st sid
       ∧ ((sid ∈ (rows.foldl (tickStep nextOf running now) (st, jobs)).2) ↔
           sid ∈ jobs)) := by
  intro rows
  induction rows with
  | nil => intro st jobs h; exact ⟨rfl, Iff.rfl⟩
  | cons r rows ih =>
    intro st jobs h
    have hr : r ≠ sid := fun he => h (he ▸ List.mem_cons_self r rows)
    have hrest : sid ∉ rows := fun hm => h (List.mem_cons_of_mem r hm)
    simp only [List.foldl_cons]
    have hfst : (tickStep nextOf running now (st, jobs) r).1 = (processRow nextOf running now st r).1 := rfl
    have hsnd : (tickStep nextOf running now (st, jobs) r).2 =
        jobs ++ (if (processRow nextOf running now st r).2 then [r] else []) := rfl
    obtain ⟨hi1, hi2⟩ := ih (tickStep nextOf running now (st, jobs) r).1
      (tickStep nextOf running now (st, jobs) r).2 hrest
    rw [Prod.mk.eta] at hi1 hi2
    constructor
    · rw [hi1, hfst]
      exact processRow_other_id nextOf running now st sid r hr
    · rw [hi2, hsnd]
      constructor
      · intro hm
        rcases List.mem_append.mp hm with hm1 | hm2
        · exact hm1
        · exfalso
          rcases hp : (processRow nextOf running now st r).2 with _ | _
          · simp [hp] at hm2
          · simp [hp] at hm2
            exact hr hm2.symm
      · intro hm
        exact List.mem_append.mpr (.inl hm)

/-- C7: a scheduler tick that finds scan `sid` due while a job for it is
still running starts no job for `sid`, and still advances the cached
next-fire time to the croniter value computed from `now`. -/
theorem scheduler_skips_running (rows l1 l2 : List Int) (sid : Int)
    (nextOf : Int → Option Int) (running : Int → Bool) (now due n : Int)
    (st : Int → Option Int)
    (hrows : rows = l1 ++ sid :: l2) (h1 : sid ∉ l1) (h2 : sid ∉ l2)
    (hst : st sid = some due) (hdue : due ≤ now) (hrun : running sid = true)
    (hnext : nextOf sid = some n) :
    (sid ∉ (scheduler_tick false rows nextOf running now st).2)
    ∧ (scheduler_tick false rows nextOf running now st).1 sid = some n := by
  subst hrows
  simp only [scheduler_tick, Bool.false_eq_true, if_false, List.foldl_append,
             List.foldl_cons]
  obtain ⟨hA1, hA2⟩ := tick_fold_no_sid nextOf running now sid l1 st [] h1
  have hstl : (l1.foldl (tickStep nextOf running now) (st, [])).1 sid = some due := by
    rw [hA1, hst]
  have hskip := processRow_skip nextOf running now due n
    (l1.foldl (tickStep nextOf running now) (st, [])).1 sid hstl hdue hrun hnext
  have hmid : tickStep nextOf running now (l1.foldl (tickStep nextOf running now) (st, [])) sid
      = (setState (l1.foldl (tickStep nextOf running now) (st, [])).1 sid n,
         (l1.foldl (tickStep nextOf running now) (st, [])).2) := by
    simp [tickStep, hskip]
  rw [hmid]
  obtain ⟨hB1, hB2⟩ := tick_fold_no_sid nextOf running now sid l2
    (setState (l1.foldl (tickStep nextOf running now) (st, [])).1 sid n)
    (l1.foldl (tickStep nextOf running now) (st, [])).2 h2
  constructor
  · intro hmem
    exact absurd (hA2.mp (hB2.mp hmem)) (List.not_mem_nil sid)
  · rw [hB1]
    simp [setState]

/-- Closed instance of `scheduler_skips_running` on a one-row tick. -/
theorem scheduler_skips_running_witness :
    ((1 : Int) ∉ (scheduler_tick false [1] (fun _ => some 30) (fun _ => true) 10
        (fun s => if s = 1 then some 5 else none)).2)
    ∧ (scheduler_tick false [1] (fun _ => some 30) (fun _ => true) 10
        (fun s => if s = 1 then some 5 else none)).1 1 = some 30 :=
  scheduler_skips_running [1] [] [] 1 (fun _ => some 30) (fun _ => true) 10 5 30
    (fun s => if s = 1 then some 5 else none) rfl (by decide) (by decide)
    (by decide) (by decide) rfl rfl

/-! ## Concurrency controller theorems -/

/-- Updating one worker's status shifts an indicator sum by the difference
of the old and new indicator values. -/
lemma sum_comp_update {M : Nat} (g : Fin M → WStatus M) (w : Fin M) (v : WStatus M)
    (F : WStatus M → Nat) :
    (∑ x : Fin M, F (Function.update g w v x)) + F (g w)
      = (∑ x : Fin M, F (g x)) + F v := by
  have h0 : (fun x => F (Function.update g w v x)) =
      Function.update (fun x => F (g x)) w (F v) := by
    funext x
    by_cases hx : x = w
    · subst hx; simp [Function.update]
    · simp [Function.update, hx]
  have h1 : (∑ x : Fin M, F (Function.update g w v x))
      = F v + ∑ x in Finset.univ \ {w}, F (g x) := by
    calc (∑ x : Fin M, F (Function.update g w v x))
        = ∑ x : Fin M, Function.update (fun y => F (g y)) w (F v) x :=
          Finset.sum_congr rfl (fun x _ => congrFun h0 x)
      _ = F v + ∑ x in Finset.univ \ {w}, F (g x) :=
          Finset.sum_update_of_mem (Finset.mem_univ w) _ _
  have h2 : (∑ x : Fin M, F (g x)) = F (g w) + ∑ x in Finset.univ.erase w, F (g x) :=
    (Finset.add_sum_erase Finset.univ (fun x => F (g x)) (Finset.mem_univ w)).symm
  rw [Finset.erase_eq] at h2
  omega

lemma qChunks_append {M : Nat} (a b : List (QItem M)) :
    qChunks (a ++ b) = qChunks a ++ qChunks b :=
  List.filterMap_append a b _

lemma qSentinels_append {M : Nat} (a b : List (QItem M)) :
    qSentinels (a ++ b) = qSentinels a + qSentinels b :=
  List.countP_append _ a b

/-- No worker may have completed yet: each summand of `doneCount` is at most
one, so the total is at most the number of workers. -/
lemma doneCount_le {M : Nat} (s : JobState M) : doneCount s ≤ M := by
  have h := Finset.sum_le_card_nsmul Finset.univ
    (fun w => if s.ws w = WStatus.done then 1 else 0) 1
    (by intro x _; by_cases h : s.ws x = WStatus.done <;> simp [h])
  simpa [doneCount] using h

/-- Splitting an append-with-singleton around a distinguished element. -/
lemma append_singleton_eq {α : Type} {q q1 q2 : List α} {a b : α}
    (h : q ++ [a] = q1 ++ b :: q2) :
    (q = q1 ∧ b = a ∧ q2 = []) ∨ (∃ q3, q2 = q3 ++ [a] ∧ q = q1 ++ b :: q3) := by
  rcases List.append_eq_append_iff.mp h with ⟨t, ht1, ht2⟩ | ⟨t, ht1, ht2⟩
  · cases t with
    | nil =>
      rw [List.nil_append] at ht2
      have hb : a = b := (List.cons.injEq ..).mp ht2 |>.1
      have hq2 : ([] : List α) = q2 := (List.cons.injEq ..).mp ht2 |>.2
      exact .inl ⟨by rw [ht1, List.append_nil], hb.symm, hq2.symm⟩
    | cons x xs =>
      exfalso
      rw [List.cons_append] at ht2
      have h2 : ([] : List α) = xs ++ b :: q2 := (List.cons.injEq ..).mp ht2 |>.2
      exact List.cons_ne_nil b q2 (List.append_eq_nil.mp h2.symm).2
  · cases t with
    | nil =>
      rw [List.append_nil] at ht1
      have hb : b = a := (List.cons.injEq ..).mp ht2 |>.1
      have hq2 : q2 = [] := (List.cons.injEq ..).mp ht2 |>.2
      exact .inl ⟨ht1, hb, hq2⟩
    | cons x xs =>
      rw [List.cons_append] at ht2
      have hb : b = x := (List.cons.injEq ..).mp ht2 |>.1
      have hq2 : q2 = xs ++ [a] := (List.cons.injEq ..).mp ht2 |>.2
      subst hb
      exact .inr ⟨xs, hq2, ht1⟩

/-- The initial state satisfies the invariant. -/
lemma jobInv_init (M N : Nat) (cs : Fin M → List String) :
    JobInv M N (initState M N cs) := by
  refine ⟨?_, rfl, ?_, ?_, ?_, ?_⟩
  · simp [initState, runningCount, WStatus.isRunning]
  · simp [initState, doneCount, qSentinels]
  · intro w q1 q2 hq c
    simp [initState] at hq
  · intro w c hmem
    simp [initState] at hmem
  · intro w hmem
    simp [initState] at hmem

/-- Every interleaving step preserves the invariant. -/
lemma jobInv_step {M N : Nat} {s s2 : JobState M} (hstep : JobStep M N s s2)
    (hinv : JobInv M N s) : JobInv M N s2 := by
  obtain ⟨i1, i2, i3, i4, i5, i6⟩ := hinv
  cases hstep with
  | start w rest hw hsem =>
    have erun : runningCount
        { s with ws := Function.update s.ws w (WStatus.running rest), sem := s.sem - 1 }
        = runningCount s + 1 := by
      have hr := sum_comp_update s.ws w (WStatus.running rest)
        (fun st => if st.isRunning then 1 else 0)
      rw [hw] at hr
      simp only [WStatus.isRunning, reduceCtorEq, reduceIte, Nat.add_zero] at hr
      exact hr
    have edone : doneCount
        { s with ws := Function.update s.ws w (WStatus.running rest), sem := s.sem - 1 }
        = doneCount s := by
      have hd := sum_comp_update s.ws w (WStatus.running rest)
        (fun st => if st = WStatus.done then 1 else 0)
      rw [hw] at hd
      simp only [reduceCtorEq, reduceIte, Nat.add_zero] at hd
      exact hd
    refine ⟨?_, i2, ?_, i4, ?_, ?_⟩
    · show s.sem - 1 + _ = N
      rw [erun]
      omega
    · show s.finished + qSentinels s.queue = _
      rw [edone]
      exact i3
    · intro w2 c hmem
      by_cases hww : w2 = w
      · subst hww
        left
        show (Function.update s.ws w2 (WStatus.running rest) w2).isRunning = true
        rw [Function.update_same]
        rfl
      · rcases i5 w2 c hmem with hr | hs
        · left
          show (Function.update s.ws w (WStatus.running rest) w2).isRunning = true
          rw [Function.update_noteq hww]
          exact hr
        · exact .inr hs
    · intro w2 hmem
      have hd := i6 w2 hmem
      by_cases hww : w2 = w
      · subst hww
        rw [hw] at hd
        exact absurd hd (by simp)
      · show Function.update s.ws w (WStatus.running rest) w2 = WStatus.done
        rw [Function.update_noteq hww]
        exact hd
  | push w c rest hw =>
    have erun : runningCount
        { s with ws := Function.update s.ws w (WStatus.running rest),
                 queue := s.queue ++ [QItem.chunk w c],
                 pushed := s.pushed ++ [(w, c)] }
        = runningCount s := by
      have hr := sum_comp_update s.ws w (WStatus.running rest)
        (fun st => if st.isRunning then 1 else 0)
      rw [hw] at hr
      simp only [WStatus.isRunning, reduceIte] at hr
      exact Nat.add_right_cancel hr
    have edone : doneCount
        { s with ws := Function.update s.ws w (WStatus.running rest),
                 queue := s.queue ++ [QItem.chunk w c],
                 pushed := s.pushed ++ [(w, c)] }
        = doneCount s := by
      have hd := sum_comp_update s.ws w (WStatus.running rest)
        (fun st => if st = WStatus.done then 1 else 0)
      rw [hw] at hd
      simp only [reduceCtorEq, reduceIte, Nat.add_zero] at hd
      exact hd
    refine ⟨?_, ?_, ?_, ?_, ?_, ?_⟩
    · show s.sem + _ = N
      rw [erun]
      exact i1
    · show s.pushed ++ [(w, c)] = s.out ++ qChunks (s.queue ++ [QItem.chunk w c])
      rw [qChunks_append, i2, List.append_assoc]
      rfl
    · show s.finished + qSentinels (s.queue ++ [QItem.chunk w c]) = _
      rw [edone, qSentinels_append]
      show s.finished + (qSentinels s.queue + 0) = doneCount s
      omega
    · intro w2 q1 q2 hq c2
      rcases append_singleton_eq hq with ⟨rfl, hb, rfl⟩ | ⟨q3, rfl, hq3⟩
      · exact absurd hb (by simp)
      · intro hmem
        rcases List.mem_append.mp hmem with hm1 | hm2
        · exact i4 w2 q1 q3 hq3 c2 hm1
        · have hcc : QItem.chunk w2 c2 = QItem.chunk w c := by simpa using hm2
          have hww : w2 = w := by
            injection hcc
          subst hww
          have hsent : QItem.sentinel w2 ∈ s.queue := by
            rw [hq3]
            exact List.mem_append.mpr (.inr (List.mem_cons_self _ _))
          have hd := i6 w2 hsent
          rw [hw] at hd
          exact absurd hd (by simp)
    · intro w2 c2 hmem
      rcases List.mem_append.mp hmem with hm1 | hm2
      · rcases i5 w2 c2 hm1 with hr | hs
        · left
          by_cases hww : w2 = w
          · subst hww
            show (Function.update s.ws w2 (WStatus.running rest) w2).isRunning = true
            rw [Function.update_same]
            rfl
          · show (Function.update s.ws w (WStatus.running rest) w2).isRunning = true
            rw [Function.update_noteq hww]
            exact hr
        · exact .inr (List.mem_append.mpr (.inl hs))
      · have hcc : QItem.chunk w2 c2 = QItem.chunk w c := by simpa using hm2
        have hww : w2 = w := by injection hcc
        subst hww
        left
        show (Function.update s.ws w2 (WStatus.running rest) w2).isRunning = true
        rw [Function.update_same]
        rfl
    · intro w2 hmem
      rcases List.mem_append.mp hmem with hm1 | hm2
      · have hd := i6 w2 hm1
        by_cases hww : w2 = w
        · subst hww
          rw [hw] at hd
          exact absurd hd (by simp)
        · show Function.update s.ws w (WStatus.running rest) w2 = WStatus.done
          rw [Function.update_noteq hww]
          exact hd
      · have hcc : QItem.sentinel w2 = QItem.chunk w c := by simpa using hm2
        exact QItem.noConfusion hcc
  | finish w rest hw =>
    have erun : runningCount
        { s with ws := Function.update s.ws w WStatus.done,
                 queue := s.queue ++ [QItem.sentinel w],
                 sem := s.sem + 1 }
        + 1 = runningCount s := by
      have hr := sum_comp_update s.ws w WStatus.done
        (fun st => if st.isRunning then 1 else 0)
      rw [hw] at hr
      simp only [WStatus.isRunning, reduceIte, Nat.add_zero] at hr
      exact hr
    have edone : doneCount
        { s with ws := Function.update s.ws w WStatus.done,
                 queue := s.queue ++ [QItem.sentinel w],
                 sem := s.sem + 1 }
        = doneCount s + 1 := by
      have hd := sum_comp_update s.ws w WStatus.done
        (fun st => if st = WStatus.done then 1 else 0)
      rw [hw] at hd
      simp only [reduceCtorEq, reduceIte, Nat.add_zero] at hd
      exact hd
    refine ⟨?_, ?_, ?_, ?_, ?_, ?_⟩
    · show s.sem + 1 + _ = N
      omega
    · show s.pushed = s.out ++ qChunks (s.queue ++ [QItem.sentinel w])
      rw [qChunks_append]
      show s.pushed = s.out ++ (qChunks s.queue ++ [])
      rw [List.append_nil]
      exact i2
    · show s.finished + qSentinels (s.queue ++ [QItem.sentinel w]) = _
      rw [edone, qSentinels_append]
      show s.finished + (qSentinels s.queue + 1) = doneCount s + 1
      omega
    · intro w2 q1 q2 hq c2
      rcases append_singleton_eq hq with ⟨rfl, hb, rfl⟩ | ⟨q3, rfl, hq3⟩
      · intro hmem
        simp at hmem
      · intro hmem
        rcases List.mem_append.mp hmem with hm1 | hm2
        · exact i4 w2 q1 q3 hq3 c2 hm1
        · have hcc : QItem.chunk w2 c2 = QItem.sentinel w := by simpa using hm2
          exact QItem.noConfusion hcc
    · intro w2 c2 hmem
      rcases List.mem_append.mp hmem with hm1 | hm2
      · rcases i5 w2 c2 hm1 with hr | hs
        · by_cases hww : w2 = w
          · subst hww
            right
            exact List.mem_append.mpr (.inr (List.mem_cons_self _ _))
          · left
            show (Function.update s.ws w WStatus.done w2).isRunning = true
            rw [Function.update_noteq hww]
            exact hr
        · exact .inr (List.mem_append.mpr (.inl hs))
      · exfalso
        have hcc : QItem.chunk w2 c2 = QItem.sentinel w := by simpa using hm2
        exact QItem.noConfusion hcc
    · intro w2 hmem
      rcases List.mem_append.mp hmem with hm1 | hm2
      · have hd := i6 w2 hm1
        by_cases hww : w2 = w
        · subst hww
          show Function.update s.ws w2 WStatus.done w2 = WStatus.done
          rw [Function.update_same]
        · show Function.update s.ws w WStatus.done w2 = WStatus.done
          rw [Function.update_noteq hww]
          exact hd
      · have hww : w2 = w := by
          have hcc : QItem.sentinel w2 = QItem.sentinel w := by simpa using hm2
          injection hcc
        subst hww
        show Function.update s.ws w2 WStatus.done w2 = WStatus.done
        rw [Function.update_same]
  | consumeChunk w c rest hq hf =>
    refine ⟨i1, ?_, ?_, ?_, ?_, ?_⟩
    · show s.pushed = s.out ++ [(w, c)] ++ qChunks rest
      rw [i2, hq, List.append_assoc]
      rfl
    · show s.finished + qSentinels rest = doneCount s
      have : qSentinels s.queue = qSentinels rest := by
        rw [hq]
        simp [qSentinels, List.countP_cons]
      omega
    · intro w2 q1 q2 hq2 c2
      have hq3 : rest = q1 ++ QItem.sentinel w2 :: q2 := hq2
      exact i4 w2 (QItem.chunk w c :: q1) q2 (by rw [hq, hq3]; rfl) c2
    · intro w2 c2 hmem
      have hmem2 : QItem.chunk w2 c2 ∈ s.queue := by
        rw [hq]
        exact List.mem_cons_of_mem _ hmem
      rcases i5 w2 c2 hmem2 with hr | hs
      · exact .inl hr
      · right
        rw [hq] at hs
        rcases List.mem_cons.mp hs with he | hm
        · exact absurd he (by simp)
        · exact hm
    · intro w2 hmem
      exact i6 w2 (by rw [hq]; exact List.mem_cons_of_mem _ hmem)
  | consumeSentinel w rest hq hf =>
    refine ⟨i1, ?_, ?_, ?_, ?_, ?_⟩
    · show s.pushed = s.out ++ qChunks rest
      rw [i2, hq]
      rfl
    · show s.finished + 1 + qSentinels rest = doneCount s
      have : qSentinels s.queue = qSentinels rest + 1 := by
        rw [hq]
        simp [qSentinels, List.countP_cons]
      omega
    · intro w2 q1 q2 hq2 c2
      have hq3 : rest = q1 ++ QItem.sentinel w2 :: q2 := hq2
      exact i4 w2 (QItem.sentinel w :: q1) q2 (by rw [hq, hq3]; rfl) c2
    · intro w2 c2 hmem
      have hmem2 : QItem.chunk w2 c2 ∈ s.queue := by
        rw [hq]
        exact List.mem_cons_of_mem _ hmem
      rcases i5 w2 c2 hmem2 with hr | hs
      · exact .inl hr
      · rw [hq] at hs
        rcases List.mem_cons.mp hs with he | hm
        · have hww : w2 = w := by injection he
          subst hww
          exact absurd hmem (i4 w2 [] rest (by rw [hq]; rfl) c2)
        · exact .inr hm
    · intro w2 hmem
      exact i6 w2 (by rw [hq]; exact List.mem_cons_of_mem _ hmem)

/-- Every reachable state satisfies the invariant. -/
lemma jobInv_reachable {M N : Nat} {cs : Fin M → List String} {s : JobState M}
    (h : JobReachable M N cs s) : JobInv M N s := by
  induction h with
  | refl => exact jobInv_init M N cs
  | tail _ hstep ih => exact jobInv_step hstep ih

/-- Once the merge loop has received all `M` sentinels, every worker has
completed, the queue has been drained, and the yielded chunks are exactly
the pushed chunks in push order. -/
lemma jobInv_final {M N : Nat} {s : JobState M} (h : JobInv M N s)
    (hM : s.finished = M) :
    (∀ w, s.ws w = WStatus.done) ∧ s.queue = [] ∧ s.out = s.pushed := by
  obtain ⟨i1, i2, i3, i4, i5, i6⟩ := h
  have hdle := doneCount_le s
  have hqs : qSentinels s.queue = 0 := by omega
  have hdc : doneCount s = M := by omega
  have hall : ∀ w, s.ws w = WStatus.done := by
    intro w
    by_contra hw
    have h2 : doneCount s
        = (if s.ws w = WStatus.done then 1 else 0)
          + ∑ x in Finset.univ.erase w, (if s.ws x = WStatus.done then 1 else 0) :=
      (Finset.add_sum_erase _ _ (Finset.mem_univ w)).symm
    have h3 : ∑ x in Finset.univ.erase w, (if s.ws x = WStatus.done then 1 else 0)
        ≤ (Finset.univ.erase w).card • 1 :=
      Finset.sum_le_card_nsmul _ _ _
        (by intro x _; by_cases hx : s.ws x = WStatus.done <;> simp [hx])
    have h4 : (Finset.univ.erase w).card = M - 1 := by
      rw [Finset.card_erase_of_mem (Finset.mem_univ w)]
      simp
    have h5 : (if s.ws w = WStatus.done then 1 else 0) = 0 := by simp [hw]
    have h6 : 1 ≤ M := w.pos
    rw [h4, smul_eq_mul] at h3
    omega
  have hqe : s.queue = [] := by
    cases hq : s.queue with
    | nil => rfl
    | cons it rest =>
      exfalso
      cases it with
      | sentinel w =>
        have : 0 < qSentinels s.queue := by
          rw [hq]
          simp [qSentinels, List.countP_cons]
        omega
      | chunk w c =>
        have hmem : QItem.chunk w c ∈ s.queue := by
          rw [hq]
          exact List.mem_cons_self _ _
        rcases i5 w c hmem with hr | hs
        · rw [hall w] at hr
          simp [WStatus.isRunning] at hr
        · have : 0 < qSentinels s.queue :=
            List.countP_pos.mpr ⟨_, hs, rfl⟩
          omega
  refine ⟨hall, hqe, ?_⟩
  rw [i2, hqe]
  simp [qChunks]

/-- While fewer than `M` sentinels have been consumed some step is enabled:
the system can always make progress toward completing every target. -/
lemma jobInv_progress {M N : Nat} {s : JobState M} (hN : 0 < N)
    (h : JobInv M N s) (hf : s.finished < M) : ∃ s2, JobStep M N s s2 := by
  obtain ⟨i1, i2, i3, i4, i5, i6⟩ := h
  cases hq : s.queue with
  | cons it rest =>
    cases it with
    | chunk w c => exact ⟨_, .consumeChunk s w c rest hq hf⟩
    | sentinel w => exact ⟨_, .consumeSentinel s w rest hq hf⟩
  | nil =>
    have hqs : qSentinels s.queue = 0 := by rw [hq]; rfl
    have hdc : doneCount s < M := by omega
    have hex : ∃ w, s.ws w ≠ WStatus.done := by
      by_contra hco
      push_neg at hco
      have : doneCount s = M := by
        have he : doneCount s = ∑ _x : Fin M, 1 :=
          Finset.sum_congr rfl (fun x _ => by rw [hco x]; simp)
        rw [he]
        simp
      omega
    obtain ⟨w0, hw0⟩ := hex
    by_cases hrun : ∃ w1, (s.ws w1).isRunning = true
    · obtain ⟨w1, hw1⟩ := hrun
      cases hst : s.ws w1 with
      | running rest1 => exact ⟨_, .finish s w1 rest1 hst⟩
      | pending r =>
        rw [hst] at hw1
        simp [WStatus.isRunning] at hw1
      | done =>
        rw [hst] at hw1
        simp [WStatus.isRunning] at hw1
    · push_neg at hrun
      have hrc : runningCount s = 0 := by
        have he : runningCount s = ∑ _x : Fin M, 0 :=
          Finset.sum_congr rfl
            (fun x _ => by
              have hx : (s.ws x).isRunning = false := Bool.eq_false_iff.mpr (hrun x)
              simp [hx])
        rw [he]
        simp
      have hsem : 0 < s.sem := by omega
      cases hst : s.ws w0 with
      | pending r => exact ⟨_, .start s w0 r hst hsem⟩
      | running r =>
        exact absurd (by rw [hst]; rfl) (hrun w0)
      | done => exact absurd hst hw0

/-- C2: in every reachable state of a job run at most `N` workers execute
simultaneously and at most `M` sentinels have been consumed; once the merge
loop has received the `M`-th sentinel every target's worker has completed,
the queue is drained, and the yielded feed equals the pushed chunks in push
order; and before that point the run can always progress. -/
theorem job_concurrency_and_completion (M N : Nat) (cs : Fin M → List String)
    (s : JobState M) (hN : 0 < N) (hreach : JobReachable M N cs s) :
    runningCount s ≤ N
    ∧ s.finished ≤ M
    ∧ (s.finished = M →
        (∀ w, s.ws w = WStatus.done) ∧ s.queue = [] ∧ s.out = s.pushed)
    ∧ (s.finished < M → ∃ s2, JobStep M N s s2) := by
  have hinv := jobInv_reachable hreach
  obtain ⟨i1, i2, i3, i4, i5, i6⟩ := hinv
  refine ⟨by omega, ?_, ?_, ?_⟩
  · have := doneCount_le s
    omega
  · intro hM
    exact jobInv_final ⟨i1, i2, i3, i4, i5, i6⟩ hM
  · intro hf
    exact jobInv_progress hN ⟨i1, i2, i3, i4, i5, i6⟩ hf

/-- Closed instance of `job_concurrency_and_completion` at the initial state
of a one-target job with concurrency bound one. -/
theorem job_concurrency_and_completion_witness :
    runningCount (initState 1 1 (fun _ => ["chunk"])) ≤ 1 :=
  (job_concurrency_and_completion 1 1 (fun _ => ["chunk"])
    (initState 1 1 (fun _ => ["chunk"])) (by decide)
    Relation.ReflTransGen.refl).1

end ArcLight
